import Mathlib

/-!
Verification of the publication-context manager and page-hierarchy logic of
the cms repository (src/cms/core/models/managers.py, src/cms/models/base.py,
src/cms/apps/pages/models/__init__.py), as a shallow embedding in Lean.

The publication manager keeps a thread-local stack of booleans; the page
models provide hierarchy traversal (parents, children, siblings) and
publication filtering of querysets.
-/

namespace CMS

/-! ### Publication manager (cms/core/models/managers.py)

The thread-local state of a PublicationManager is its stack, a Python list
of booleans.  We embed the stack as a Lean list whose last element is the
top of the stack, exactly as the Python code uses append, pop and the
index -1 on the end of the list. -/

/-- Error raised when something goes wrong with publication management
(class PublicationManagementError). -/
inductive PublicationManagementError where
  | noActiveBlock : PublicationManagementError
deriving DecidableEq

/-- PublicationManager._begin: appends the given publication setting to
the stack. -/
def _begin (select_published : Bool) (s : List Bool) : List Bool :=
  s ++ [select_published]

/-- PublicationManager.select_published_active: returns the last element
of the stack, and True on an empty stack (the IndexError branch). -/
def select_published_active (s : List Bool) : Bool :=
  s.getLastD true

/-- PublicationManager._end: pops the last element of the stack, raising
PublicationManagementError when the stack is empty (the IndexError
branch). -/
def _end (s : List Bool) : Except PublicationManagementError (List Bool) :=
  match s with
  | [] => Except.error PublicationManagementError.noActiveBlock
  | _ :: _ => Except.ok s.dropLast

/-- A program made of correctly paired enter/exit publication scopes:
an atomic action (whose boolean says whether it raises an exception),
sequencing, and the select_published context manager wrapping a body. -/
inductive Prog where
  | act : Bool → Prog
  | seq : Prog → Prog → Prog
  | scope : Bool → Prog → Prog
deriving DecidableEq

/-- Whether a program terminates by raising an exception: a raising action
raises; a sequence raises when its first part does (skipping the second)
or when its second part does; the select_published context manager
re-raises whatever its body raises. -/
def raises : Prog → Bool
  | Prog.act r => r
  | Prog.seq p q => raises p || raises q
  | Prog.scope _ p => raises p

/-- Executes a program on a stack.  Prog.scope embeds
PublicationManager.select_published: _begin on entry, then the body, then
_end in the finally clause (run even when the body raised), after which
the body's exception, if any, propagates.  The Except layer carries the
PublicationManagementError that _end can raise. -/
def run : Prog → List Bool → Except PublicationManagementError (List Bool × Bool)
  | Prog.act r, s => Except.ok (s, r)
  | Prog.seq p q, s =>
      match run p s with
      | Except.error e => Except.error e
      | Except.ok (s1, r1) => if r1 then Except.ok (s1, true) else run q s1
  | Prog.scope v p, s =>
      match run p ( _begin v s) with
      | Except.error e => Except.error e
      | Except.ok (s1, r1) =>
          match _end s1 with
          | Except.error e => Except.error e
          | Except.ok s2 => Except.ok (s2, r1)

theorem dropLast_append_single (s : List Bool) (v : Bool) :
    (s ++ [v]).dropLast = s := by
  induction s with
  | nil => rfl
  | cons a t ih => simp [List.dropLast, ih]

theorem end_begin (s : List Bool) (v : Bool) :
    _end ( _begin v s) = Except.ok s := by
  unfold _end _begin
  match s with
  | [] => rfl
  | a :: t => exact congrArg Except.ok (dropLast_append_single (a :: t) v)

theorem run_ok : ∀ (p : Prog) (s : List Bool), run p s = Except.ok (s, raises p)
  | Prog.act r, s => rfl
  | Prog.seq p q, s => by
      unfold run
      rw [run_ok p s]
      by_cases hr : raises p
      · simp [hr, raises]
      · simp [hr, raises, run_ok q s]
  | Prog.scope v p, s => by
      unfold run
      rw [run_ok p ( _begin v s)]
      simp [end_begin, raises]

/-- Claim C1: for every correctly paired sequence of enter/exit
publication-context scopes, including scopes whose body raises, execution
never hits the imbalanced-context error (each push is popped exactly
once), the stack after the full unwind is the stack before it, and hence
select_published_active returns the same value after the unwind as
before the outermost enter. -/
theorem scope_stack_balance (p : Prog) (s : List Bool) :
    run p s = Except.ok (s, raises p) ∧
    (run p s).map (fun x => select_published_active x.1) =
      Except.ok (select_published_active s) := by
  refine ⟨run_ok p s, ?_⟩
  rw [run_ok p s]
  rfl

/-- Claim C2: select_published_active returns the most recently pushed
value on a non-empty stack and true on the empty stack; being a pure
read of the stack, it leaves the stack unchanged. -/
theorem select_published_active_spec (s : List Bool) (v : Bool) :
    select_published_active ( _begin v s) = v ∧
    select_published_active ([] : List Bool) = true := by
  constructor
  · unfold select_published_active _begin
    simp
  · rfl

/-- Claim C3: popping an empty publication-context stack raises
PublicationManagementError (exiting more times than entering fails with
the imbalanced-context error), while popping any non-empty stack
succeeds and never raises. -/
theorem end_imbalance_spec (s : List Bool) (h : s ≠ []) :
    _end ([] : List Bool) = Except.error PublicationManagementError.noActiveBlock ∧
    _end s = Except.ok s.dropLast := by
  refine ⟨rfl, ?_⟩
  match s, h with
  | a :: t, _ => rfl

/-- Witness for claim C3 at the concrete one-element stack. -/
theorem end_imbalance_spec_witness :
    _end ([] : List Bool) = Except.error PublicationManagementError.noActiveBlock ∧
    _end [true] = Except.ok [] :=
  end_imbalance_spec [true] (by decide)

/-! ### Parent chains (EntityBase.all_parents, Page.get_all_parents)

A page together with its chain of parent references: each page has an
identifier and an optional parent page.  The parent chain is finite, as
in any acyclic page hierarchy loaded from the store. -/

inductive ParentPage where
  | mk : Nat → Option ParentPage → ParentPage

/-- EntityBase.all_parents and Page.get_all_parents: if the page has a
parent, the result is the singleton list of the parent concatenated with
the parent's own all_parents; otherwise the empty list. -/
def all_parents : ParentPage → List ParentPage
  | ParentPage.mk _ none => []
  | ParentPage.mk _ (some p) => [p] ++ all_parents p

/-- Counterexample to claim C4: for the two-level chain root → mid → P,
all_parents returns the nearest parent first and the root last, so it is
not the root-first list [root, mid] the claim describes. -/
theorem all_parents_not_root_first :
    ¬ (all_parents
        (ParentPage.mk 2 (some (ParentPage.mk 1 (some (ParentPage.mk 0 none))))) =
      [ParentPage.mk 0 none, ParentPage.mk 1 (some (ParentPage.mk 0 none))]) := by
  intro h
  simp [all_parents, ParentPage.mk.injEq] at h

/-- Claim C4 (amended): all_parents of a root page is the empty list,
and for a page two levels deep (root → mid → P) it is exactly
[mid, root]: the ancestors ordered nearest parent first and root last,
exclusive of P itself. -/
theorem all_parents_order (i j k : Nat) :
    all_parents (ParentPage.mk i none) = [] ∧
    all_parents
        (ParentPage.mk k (some (ParentPage.mk j (some (ParentPage.mk i none))))) =
      [ParentPage.mk j (some (ParentPage.mk i none)), ParentPage.mk i none] := by
  exact ⟨rfl, rfl⟩

/-! ### Descendant enumeration (EntityBase.all_children, Page.get_all_children)

A page together with its ordered list of children, recursively. -/

inductive CPage where
  | mk : Nat → List CPage → CPage

/-- The ordered children of a page (the children property). -/
def children : CPage → List CPage
  | CPage.mk _ cs => cs

mutual

/-- EntityBase.all_children and Page.get_all_children: iterates over the
children in order, appending each child and then extending with that
child's own all_children before moving to the next sibling. -/
def all_children : CPage → List CPage
  | CPage.mk _ cs => all_children_list cs

/-- The loop body of all_children over a list of children: emit the
child, then the child's full subtree, then the remaining siblings. -/
def all_children_list : List CPage → List CPage
  | [] => []
  | c :: rest => c :: (all_children c ++ all_children_list rest)

end

mutual

theorem sizeOf_lt_of_mem_all_children (p q : CPage)
    (h : q ∈ all_children p) : sizeOf q < sizeOf p := by
  match p with
  | CPage.mk i cs =>
      have h2 : q ∈ all_children_list cs := by
        simpa [all_children] using h
      have h3 := sizeOf_lt_of_mem_all_children_list cs q h2
      have h4 : sizeOf (CPage.mk i cs) = 1 + sizeOf i + sizeOf cs := by
        simp
      omega

theorem sizeOf_lt_of_mem_all_children_list (cs : List CPage) (q : CPage)
    (h : q ∈ all_children_list cs) : sizeOf q < sizeOf cs := by
  match cs with
  | [] => simp [all_children_list] at h
  | c :: rest =>
      have h4 : sizeOf (c :: rest) = 1 + sizeOf c + sizeOf rest := by
        simp
      rw [all_children_list] at h
      rcases List.mem_cons.mp h with h1 | h1
      · subst h1; omega
      · rcases List.mem_append.mp h1 with h2 | h2
        · have := sizeOf_lt_of_mem_all_children c q h2
          omega
        · have := sizeOf_lt_of_mem_all_children_list rest q h2
          omega

end

theorem not_mem_all_children_self (p : CPage) : p ∉ all_children p := by
  intro h
  exact absurd (sizeOf_lt_of_mem_all_children p p h) (lt_irrefl _)

/-- Claim C5: all_children enumerates descendants depth-first, each
child immediately followed by its own full subtree: for P with children
[A, B] where A has one child A1, the result is exactly [A, A1, B]; and
no page ever appears in its own all_children. -/
theorem all_children_preorder (i a a1 b : Nat) :
    all_children
        (CPage.mk i [CPage.mk a [CPage.mk a1 []], CPage.mk b []]) =
      [CPage.mk a [CPage.mk a1 []], CPage.mk a1 [], CPage.mk b []] ∧
    ∀ p : CPage, p ∉ all_children p := by
  constructor
  · simp [all_children, all_children_list]
  · intro p
    exact not_mem_all_children_self p

/-- Witness for claim C5 at concrete page identifiers. -/
theorem all_children_preorder_witness :
    all_children
        (CPage.mk 0 [CPage.mk 1 [CPage.mk 2 []], CPage.mk 3 []]) =
      [CPage.mk 1 [CPage.mk 2 []], CPage.mk 2 [], CPage.mk 3 []] ∧
    CPage.mk 0 [] ∉ all_children (CPage.mk 0 []) :=
  ⟨(all_children_preorder 0 1 2 3).1, (all_children_preorder 0 1 2 3).2 _⟩

/-! ### Sibling navigation (EntityBase.siblings, EntityBase.next, EntityBase.prev)

Pages are identified by their primary keys (model equality in the host
framework compares primary keys); a world gives each page its optional
parent and each page its ordered list of children (the canonical child
ordering of the model). -/

structure World where
  parent : Nat → Option Nat
  childrenOf : Nat → List Nat

/-- EntityBase.siblings: the parent's children when the page has a
parent, and the empty tuple otherwise. -/
def siblings (w : World) (p : Nat) : List Nat :=
  match w.parent p with
  | some q => w.childrenOf q
  | none => []

/-- The scanning loop shared by EntityBase.next and EntityBase.prev:
advance through the iterator until an element equal to self is found,
then return the following element of the iterator; StopIteration at
either step yields None. -/
def scanNext (x : Nat) : List Nat → Option Nat
  | [] => none
  | a :: rest => if a = x then rest.head? else scanNext x rest

/-- EntityBase.next: scans iter(self.siblings) for self and returns the
subsequent element, or None. -/
def next (w : World) (p : Nat) : Option Nat :=
  scanNext p (siblings w p)

/-- EntityBase.prev: scans iter(reversed(self.siblings)) for self and
returns the subsequent element of the reversed iterator, or None. -/
def prev (w : World) (p : Nat) : Option Nat :=
  scanNext p (siblings w p).reverse

theorem scanNext_append (x : Nat) (l1 l2 : List Nat) (h : x ∉ l1) :
    scanNext x (l1 ++ x :: l2) = l2.head? := by
  induction l1 with
  | nil => simp [scanNext]
  | cons a t ih =>
      have ha : a ≠ x := fun hc => h (hc ▸ List.mem_cons_self a t)
      have ht : x ∉ t := fun hc => h (List.mem_cons_of_mem a hc)
      simp only [List.cons_append, scanNext, if_neg ha]
      exact ih ht

/-- Claim C6: when a page occurs exactly once among its parent's
children (children = l1 ++ [p] ++ l2 with p in neither part), next
returns the sibling immediately after it (None when it is last) and
prev returns the sibling immediately before it (None when it is
first). -/
theorem next_prev_unique (w : World) (p q : Nat) (l1 l2 : List Nat)
    (hpar : w.parent p = some q) (hch : w.childrenOf q = l1 ++ p :: l2)
    (h1 : p ∉ l1) (h2 : p ∉ l2) :
    next w p = l2.head? ∧ prev w p = l1.getLast? := by
  have hs : siblings w p = l1 ++ p :: l2 := by
    simp [siblings, hpar, hch]
  constructor
  · rw [next, hs]
    exact scanNext_append p l1 l2 h1
  · rw [prev, hs]
    have hrev : (l1 ++ p :: l2).reverse = l2.reverse ++ p :: l1.reverse := by
      simp [List.reverse_append]
    rw [hrev, scanNext_append p l2.reverse l1.reverse (by simpa using h2)]
    exact List.head?_reverse l1

/-- A concrete world: page 0 is a root with children 1, 2, 3; page 9 is
another root. -/
def w0 : World where
  parent := fun n => if n = 1 ∨ n = 2 ∨ n = 3 then some 0 else none
  childrenOf := fun n => if n = 0 then [1, 2, 3] else []

/-- Witness for claim C6: in w0, page 2 sits between pages 1 and 3. -/
theorem next_prev_unique_witness :
    next w0 2 = some 3 ∧ prev w0 2 = some 1 := by
  have h := next_prev_unique w0 2 0 [1] [3] (by decide) (by decide)
    (by decide) (by decide)
  simpa using h

/-- Claim C10: a page with no parent has no siblings (the empty tuple),
even when other root pages exist, and therefore its next and prev are
both None. -/
theorem root_no_siblings (w : World) (p : Nat) (h : w.parent p = none) :
    siblings w p = [] ∧ next w p = none ∧ prev w p = none := by
  have hs : siblings w p = [] := by
    simp [siblings, h]
  refine ⟨hs, ?_, ?_⟩
  · rw [next, hs]; rfl
  · rw [prev, hs]; rfl

/-- Witness for claim C10: page 0 is a root of w0 while another root,
page 9, exists; its siblings are empty and next and prev are None. -/
theorem root_no_siblings_witness :
    siblings w0 0 = [] ∧ next w0 0 = none ∧ prev w0 0 = none :=
  root_no_siblings w0 0 (by decide)

/-! ### Publication filtering of querysets (Page.select_published,
PublishedBase.select_published, PublishedModelManager.get_query_set)

A queryset is embedded as a list of page records; filter calls become
List.filter.  Timestamps are integers; None timestamps are Option.none. -/

structure PageRec where
  id : Nat
  parent : Option Nat
  is_online : Bool
  publication_date : Option Int
  expiry_date : Option Int
deriving DecidableEq

/-- PublishedBase.select_published: filters the queryset down to the
records with is_online=True. -/
def publishedBase_select_published (qs : List PageRec) : List PageRec :=
  qs.filter (fun p => p.is_online)

/-- Page.select_published: applies the superclass filter, then keeps
records whose publication_date is None or at most now, then records
whose expiry_date is None or strictly after now. -/
def page_select_published (now : Int) (qs : List PageRec) : List PageRec :=
  ((publishedBase_select_published qs).filter
      (fun p => match p.publication_date with
        | none => true
        | some d => decide (d ≤ now))).filter
    (fun p => match p.expiry_date with
      | none => true
      | some d => decide (now < d))

theorem mem_page_select_published (now : Int) (qs : List PageRec) (p : PageRec) :
    p ∈ page_select_published now qs ↔
      p ∈ qs ∧ p.is_online = true ∧
      (p.publication_date = none ∨ ∃ d, p.publication_date = some d ∧ d ≤ now) ∧
      (p.expiry_date = none ∨ ∃ d, p.expiry_date = some d ∧ now < d) := by
  unfold page_select_published publishedBase_select_published
  cases hp : p.publication_date <;> cases he : p.expiry_date <;>
    simp [List.mem_filter, hp, he] <;> tauto

/-- Claim C7: a page is in the published-page filtered queryset exactly
when it is in the underlying queryset, its online flag is true, its
publication start is null or at most now, and its expiry is null or
strictly after now. -/
theorem select_published_filter (now : Int) (qs : List PageRec) (p : PageRec) :
    p ∈ page_select_published now qs ↔
      p ∈ qs ∧ p.is_online = true ∧
      (p.publication_date = none ∨ ∃ d, p.publication_date = some d ∧ d ≤ now) ∧
      (p.expiry_date = none ∨ ∃ d, p.expiry_date = some d ∧ now < d) :=
  mem_page_select_published now qs p

theorem select_published_active_begin (v : Bool) (s : List Bool) :
    select_published_active ( _begin v s) = v := by
  unfold select_published_active _begin
  simp

/-- PublishedModelManager.get_query_set: the base queryset, run through
the model's select_published filter exactly when
publication_manager.select_published_active() is true. -/
def get_query_set (s : List Bool) (now : Int) (base : List PageRec) :
    List PageRec :=
  if select_published_active s then page_select_published now base else base

/-- Page.get_children: Page.objects.filter(parent=self), i.e. the
manager's (possibly publication-filtered) queryset restricted to the
records whose parent is the given page. -/
def get_children (s : List Bool) (now : Int) (base : List PageRec)
    (pid : Nat) : List PageRec :=
  (get_query_set s now base).filter (fun p => decide (p.parent = some pid))

/-- Claim C8: pushing the filtering context (select_published=True in
the code, the spec's show_unpublished=False) makes the children query
exclude a draft child D with is_online=False; popping that context
succeeds and restores the stack, and pushing the non-filtering context
(select_published=False, the spec's show_unpublished=True) makes the
same query include D. -/
theorem context_gates_children (s : List Bool) (now : Int)
    (base : List PageRec) (D : PageRec) (pid : Nat)
    (hmem : D ∈ base) (hpar : D.parent = some pid)
    (hoff : D.is_online = false) :
    D ∉ get_children ( _begin true s) now base pid ∧
    _end ( _begin true s) = Except.ok s ∧
    D ∈ get_children ( _begin false s) now base pid := by
  refine ⟨?_, end_begin s true, ?_⟩
  · intro hD
    unfold get_children get_query_set at hD
    rw [select_published_active_begin] at hD
    simp only [if_true, reduceIte] at hD
    have h1 : D ∈ page_select_published now base :=
      (List.mem_filter.mp hD).1
    have h2 := ((mem_page_select_published now base D).mp h1).2.1
    rw [hoff] at h2
    exact Bool.noConfusion h2
  · unfold get_children get_query_set
    rw [select_published_active_begin]
    simp only [Bool.false_eq_true, if_false, reduceIte]
    exact List.mem_filter.mpr ⟨hmem, by simp [hpar]⟩

/-- Witness for claim C8: a draft page with identity 7 under parent 3 is
excluded by the children query under the filtering context and included
after popping it and pushing the non-filtering context. -/
theorem context_gates_children_witness :
    PageRec.mk 7 (some 3) false none none ∉
      get_children ( _begin true []) 0 [PageRec.mk 7 (some 3) false none none] 3 ∧
    _end ( _begin true []) = Except.ok [] ∧
    PageRec.mk 7 (some 3) false none none ∈
      get_children ( _begin false []) 0 [PageRec.mk 7 (some 3) false none none] 3 :=
  context_gates_children [] 0 [PageRec.mk 7 (some 3) false none none]
    (PageRec.mk 7 (some 3) false none none) 3
    (List.mem_singleton.mpr rfl) rfl rfl

/-! ### Page hierarchy cache and the save/delete hooks
(Page.save, Page.delete, cms.apps.pages.models.managers.cache) -/

/-- Modelled from the spec: the page cache object
(cms.apps.pages.models.managers.cache) is imported by the Page model
but its implementation is not among the source files.  Per the spec, it
is a mapping from page identity to page object; we embed it as an
association list from identities to records, looked up front to back. -/
def cache_get (c : List (Nat × PageRec)) (i : Nat) : Option PageRec :=
  (c.find? (fun e => e.1 == i)).map (fun e => e.2)

/-- Modelled from the spec: cache.add(page) inserts or overwrites the
entry for the page identity. -/
def cache_add (c : List (Nat × PageRec)) (p : PageRec) :
    List (Nat × PageRec) :=
  (p.id, p) :: c.filter (fun e => ! (e.1 == p.id))

/-- Modelled from the spec: cache.remove(page) deletes the entry for the
page identity if present, and is a no-op otherwise. -/
def cache_remove (c : List (Nat × PageRec)) (p : PageRec) :
    List (Nat × PageRec) :=
  c.filter (fun e => ! (e.1 == p.id))

/-- The visible state the save/delete hooks act on: the backing store
and the hierarchy cache. -/
structure DB where
  store : List PageRec
  cache : List (Nat × PageRec)

/-- Page.save: the superclass save persists the record in the store,
then cache.add(self) caches the page. -/
def page_save (db : DB) (p : PageRec) : DB :=
  { store := p :: db.store.filter (fun q => ! (q.id == p.id)),
    cache := cache_add db.cache p }

/-- Page.delete: the superclass delete removes the record from the
store, then cache.remove(self) un-caches the page. -/
def page_delete (db : DB) (p : PageRec) : DB :=
  { store := db.store.filter (fun q => ! (q.id == p.id)),
    cache := cache_remove db.cache p }

/-- A step of page lifecycle: an administrative save or a delete. -/
inductive PageOp where
  | save : PageRec → PageOp
  | del : PageRec → PageOp
deriving DecidableEq

def opId : PageOp → Nat
  | PageOp.save p => p.id
  | PageOp.del p => p.id

def applyOp (db : DB) : PageOp → DB
  | PageOp.save p => page_save db p
  | PageOp.del p => page_delete db p

def applyOps (db : DB) (ops : List PageOp) : DB :=
  ops.foldl applyOp db

theorem find?_filter_ne (c : List (Nat × PageRec)) (i j : Nat) (h : i ≠ j) :
    (c.filter (fun e => ! (e.1 == j))).find? (fun e => e.1 == i) =
      c.find? (fun e => e.1 == i) := by
  induction c with
  | nil => rfl
  | cons a t ih =>
      by_cases ha : a.1 = j
      · have h1 : (a.1 == j) = true := by simp [ha]
        have h2 : (a.1 == i) = false := by simp [ha, Ne.symm h]
        simp [List.filter, List.find?, h1, h2, ih]
      · have h1 : (a.1 == j) = false := by simp [ha]
        by_cases hb : a.1 = i
        · have h2 : (a.1 == i) = true := by simp [hb]
          simp [List.filter, List.find?, h1, h2]
        · have h2 : (a.1 == i) = false := by simp [hb]
          simp [List.filter, List.find?, h1, h2, ih]

theorem find?_filter_self (c : List (Nat × PageRec)) (j : Nat) :
    (c.filter (fun e => ! (e.1 == j))).find? (fun e => e.1 == j) = none := by
  induction c with
  | nil => rfl
  | cons a t ih =>
      by_cases ha : a.1 = j
      · have h1 : (a.1 == j) = true := by simp [ha]
        simp [List.filter, h1, ih]
      · have h1 : (a.1 == j) = false := by simp [ha]
        simp [List.filter, List.find?, h1, ih]

theorem cache_get_add_self (c : List (Nat × PageRec)) (p : PageRec) :
    cache_get (cache_add c p) p.id = some p := by
  simp [cache_get, cache_add, List.find?]

theorem cache_get_add_other (c : List (Nat × PageRec)) (p : PageRec)
    (i : Nat) (h : i ≠ p.id) :
    cache_get (cache_add c p) i = cache_get c i := by
  have h1 : (p.id == i) = false := by simp [Ne.symm h]
  simp [cache_get, cache_add, List.find?, h1, find?_filter_ne c i p.id h]

theorem cache_get_remove_self (c : List (Nat × PageRec)) (p : PageRec) :
    cache_get (cache_remove c p) p.id = none := by
  simp [cache_get, cache_remove, find?_filter_self]

theorem cache_get_remove_other (c : List (Nat × PageRec)) (p : PageRec)
    (i : Nat) (h : i ≠ p.id) :
    cache_get (cache_remove c p) i = cache_get c i := by
  simp [cache_get, cache_remove, find?_filter_ne c i p.id h]

theorem cache_get_applyOps (db : DB) (i : Nat) (ops : List PageOp)
    (h : ∀ op ∈ ops, opId op ≠ i) :
    cache_get (applyOps db ops).cache i = cache_get db.cache i := by
  induction ops generalizing db with
  | nil => rfl
  | cons op rest ih =>
      have hop : opId op ≠ i := h op (List.mem_cons_self op rest)
      have hrest : ∀ o ∈ rest, opId o ≠ i := fun o ho =>
        h o (List.mem_cons_of_mem op ho)
      have hstep : cache_get (applyOp db op).cache i = cache_get db.cache i := by
        cases op with
        | save p => exact cache_get_add_other db.cache p i (Ne.symm hop)
        | del p => exact cache_get_remove_other db.cache p i (Ne.symm hop)
      calc cache_get (applyOps db (op :: rest)).cache i
          = cache_get (applyOps (applyOp db op) rest).cache i := rfl
        _ = cache_get (applyOp db op).cache i := ih (applyOp db op) hrest
        _ = cache_get db.cache i := hstep

theorem cache_remove_absent (c : List (Nat × PageRec)) (p : PageRec)
    (h : cache_get c p.id = none) : cache_remove c p = c := by
  have h1 : c.find? (fun e => e.1 == p.id) = none := by
    unfold cache_get at h
    cases hf : c.find? (fun e => e.1 == p.id) with
    | none => rfl
    | some e => rw [hf] at h; exact Option.noConfusion h
  have h2 := List.find?_eq_none.mp h1
  unfold cache_remove
  refine List.filter_eq_self.mpr ?_
  intro e he
  simp [h2 e he]

/-- Claim C9: saving a page caches it under its identity (overwriting
any earlier entry), and the cached entry survives any further saves and
deletes of other identities; deleting a page removes its cache entry;
and removing an identity that is not cached leaves the cache unchanged
rather than failing. -/
theorem cache_follows_save_delete (db : DB) (P : PageRec)
    (ops : List PageOp) (h : ∀ op ∈ ops, opId op ≠ P.id) :
    cache_get (applyOps (page_save db P) ops).cache P.id = some P ∧
    cache_get (page_delete db P).cache P.id = none ∧
    ∀ c : List (Nat × PageRec), cache_get c P.id = none →
      cache_remove c P = c := by
  refine ⟨?_, cache_get_remove_self db.cache P, fun c hc => cache_remove_absent c P hc⟩
  have h1 := cache_get_applyOps (page_save db P) P.id ops h
  rw [h1]
  exact cache_get_add_self db.cache P

/-- Witness for claim C9: page 1 is saved into an empty database, page
2 is then saved, and page 1 stays cached; deleting page 1 un-caches it;
removing it from a cache that does not hold it changes nothing. -/
theorem cache_follows_save_delete_witness :
    cache_get (applyOps (page_save (DB.mk [] [])
        (PageRec.mk 1 none true none none))
        [PageOp.save (PageRec.mk 2 none true none none)]).cache 1 =
      some (PageRec.mk 1 none true none none) ∧
    cache_get (page_delete (DB.mk [] [])
        (PageRec.mk 1 none true none none)).cache 1 = none ∧
    cache_remove [((5 : Nat), PageRec.mk 5 none true none none)]
        (PageRec.mk 1 none true none none) =
      [((5 : Nat), PageRec.mk 5 none true none none)] := by
  have h := cache_follows_save_delete (DB.mk [] [])
    (PageRec.mk 1 none true none none)
    [PageOp.save (PageRec.mk 2 none true none none)] (by decide)
  exact ⟨h.1, h.2.1, h.2.2 _ (by decide)⟩

end CMS
